import Mathlib

/-!
Verification of the core algorithms of the `conversational-queries` repository:
the multi-level Google-suggestion collector and the question consolidator of
`app.py`, the theme-bounded question budget allocator of `app.py`, and the
level-2 cleaning logic of `1_advanced_scrap.py`.

Python string primitives (`str.lower`, `str.strip`, the regex `[^\w\s]`) are
modelled character-by-character for the ASCII range: `str.lower` maps `A`-`Z`
to `a`-`z`, `str.strip` removes the ASCII whitespace characters
space, tab, newline, carriage return, vertical tab and form feed, and `\w`
matches `[A-Za-z0-9_]` while `\s` matches the same whitespace set.
Python dictionaries preserve insertion order, so they are modelled as
association lists; Python sets are modelled as duplicate-free lists whose
order stands for one enumeration order of the set.
-/

namespace ConvQueries

/-- ASCII model of Python `str.lower` on one character: `A`–`Z` (codes
65–90) map to `a`–`z` (codes 97–122), everything else is unchanged. -/
def pyLowerChar (c : Char) : Char :=
  if 65 ≤ c.toNat ∧ c.toNat ≤ 90 then Char.ofNat (c.toNat + 32) else c

/-- ASCII model of Python whitespace (`str.strip` / regex `\s`):
space, tab, newline, carriage return, vertical tab, form feed. -/
def pyIsSpaceChar (c : Char) : Bool :=
  c = ' ' ∨ c = '\t' ∨ c = '\n' ∨ c = '\r' ∨ c = Char.ofNat 11 ∨ c = Char.ofNat 12

/-- ASCII model of the regex class `\w`: letters, digits and the underscore. -/
def pyIsWordChar (c : Char) : Bool :=
  c.isAlphanum || c = '_'

/-- Characters kept by the substitution `re.sub(r'[^\w\s]', '', s)`:
word characters and whitespace. -/
def pyIsKeptChar (c : Char) : Bool :=
  pyIsWordChar c || pyIsSpaceChar c

/-- Modelled from the spec: the characters the spec says normalization keeps,
namely "alphanumeric or whitespace" (no underscore). -/
def specIsKeptChar (c : Char) : Bool :=
  c.isAlphanum || pyIsSpaceChar c

/-- Python `str.strip` on a character list: drop leading and trailing
whitespace. -/
def pyStripList (l : List Char) : List Char :=
  ((l.dropWhile pyIsSpaceChar).reverse.dropWhile pyIsSpaceChar).reverse

/-- Python `str.strip` on a string. -/
def pyStrip (s : String) : String :=
  ⟨pyStripList s.data⟩

/-- Python `str.lower` on a string (ASCII model). -/
def pyLower (s : String) : String :=
  ⟨s.data.map pyLowerChar⟩

/-- Python `re.sub(r'[^\w\s]', '', s)`: delete every character that is
neither a word character nor whitespace. -/
def pySubNonWord (s : String) : String :=
  ⟨s.data.filter pyIsKeptChar⟩

/-- `suggestion.lower().strip()` — the visited-set normalisation used by
`get_google_suggestions_multilevel` (app.py line 176/182/200/220). -/
def normLowerTrim (s : String) : String :=
  pyStrip (pyLower s)

/-- `re.sub(r'[^\w\s]', '', question.lower()).strip()` — the normalisation
used by `consolidate_and_deduplicate` (app.py line 245). -/
def normalizeQ (s : String) : String :=
  pyStrip (pySubNonWord (pyLower s))

/-- Modelled from the spec: the normalisation as the spec words it
("lowercase the text, strip all characters that are not alphanumeric or
whitespace, collapse to trimmed form") — underscores are removed here. -/
def specNormalizeQ (s : String) : String :=
  pyStrip ⟨(pyLower s).data.filter specIsKeptChar⟩

/-- Python slice `l[:n]` for an `int` bound `n`: non-negative `n` takes the
first `n` elements, negative `n` drops the last `-n` elements. -/
def pyTake (l : List α) (n : Int) : List α :=
  if 0 ≤ n then l.take n.toNat else l.take (l.length - (-n).toNat)

/-- Stable insertion step: place `x` before the first element `y` with
`ge x y`; with `ge a b` reading "`a` sorts at least as high as `b`" this
realises Python's stable `sorted(..., reverse=True)` (an earlier element
stays before later elements with an equal key). -/
def stableInsert (ge : α → α → Bool) (x : α) : List α → List α
  | [] => [x]
  | y :: ys => if ge x y then x :: y :: ys else y :: stableInsert ge x ys

/-- Stable sort by the comparison `ge` (descending, ties keep input order):
the model of Python's stable `sorted(..., reverse=True)`. -/
def stableSort (ge : α → α → Bool) : List α → List α
  | [] => []
  | x :: xs => stableInsert ge x (stableSort ge xs)

/-- One row of the list built by `get_google_suggestions_multilevel`
(app.py lines 170-175): the keys `'Mot-clé'`, `'Niveau'`,
`'Suggestion Google'` and `'Parent'`. -/
structure SuggestionRecord where
  keyword : String
  level : Nat
  text : String
  parent : Option String
deriving Repr, DecidableEq

/-- `get_google_suggestions(keyword, lang, max_suggestions)` (app.py lines
145-162): the external HTTP call is abstracted as `fetch` (the language
parameter is folded into `fetch`); on success the suggestion list is
truncated to `max_suggestions`, and any exception is caught and turned into
the empty list. -/
def get_google_suggestions (fetch : String → Except Unit (List String))
    (keyword : String) (max_suggestions : Nat) : List String :=
  match fetch keyword with
  | .ok suggestions => suggestions.take max_suggestions
  | .error _ => []

/-- The mutable state of `get_google_suggestions_multilevel`:
`all_suggestions`, the `level2_parents` accumulator, and the
`processed_suggestions` visited set (modelled as the list of normalised
texts in insertion order; only membership is ever consulted). -/
structure MLState where
  records : List SuggestionRecord
  parents2 : List SuggestionRecord
  processed : List String
deriving Repr, DecidableEq

/-- One iteration of the per-suggestion loops of
`get_google_suggestions_multilevel` (app.py lines 181-190, 199-210,
219-228): drop the candidate if its lowercased-trimmed form was already
seen, otherwise append a record and mark it seen; `track` is true exactly
for the level-2 loop, which also records the new entry in
`level2_parents`. -/
def mlInsert (kw : String) (lvl : Nat) (parentText : String) (track : Bool)
    (st : MLState) (s : String) : MLState :=
  let n := normLowerTrim s
  if n ∈ st.processed then st
  else
    let r : SuggestionRecord := ⟨kw, lvl, s, some parentText⟩
    { records := st.records ++ [r]
      parents2 := if track then st.parents2 ++ [r] else st.parents2
      processed := st.processed ++ [n] }

/-- app.py lines 169-190: the state after the seed record (level 0) and
the level-1 loop. -/
def mlLevel1 (fetch : String → Except Unit (List String)) (keyword : String)
    (level1_count : Nat) : MLState :=
  (get_google_suggestions fetch keyword level1_count).foldl
    (mlInsert keyword 1 keyword false)
    { records := [⟨keyword, 0, keyword, none⟩]
      parents2 := []
      processed := [normLowerTrim keyword] }

/-- app.py lines 194-212: the level-2 loop — expand every record of level 1
(iterating over a copy of `all_suggestions` filtered to `Niveau == 1`). -/
def mlLevel2 (fetch : String → Except Unit (List String)) (keyword : String)
    (level2_count : Nat) (st : MLState) : MLState :=
  (st.records.filter (fun r => r.level = 1)).foldl
    (fun acc p =>
      (get_google_suggestions fetch p.text level2_count).foldl
        (mlInsert keyword 2 p.text true) acc)
    st

/-- app.py lines 215-230: the level-3 loop — expand every entry of
`level2_parents`. -/
def mlLevel3 (fetch : String → Except Unit (List String)) (keyword : String)
    (level3_count : Nat) (st : MLState) : MLState :=
  st.parents2.foldl
    (fun acc p =>
      (get_google_suggestions fetch p.text level3_count).foldl
        (mlInsert keyword 3 p.text false) acc)
    st

/-- `get_google_suggestions_multilevel` (app.py lines 164-232). -/
def get_google_suggestions_multilevel
    (fetch : String → Except Unit (List String)) (keyword : String)
    (level1_count level2_count level3_count : Nat)
    (enable_level2 enable_level3 : Bool) : List SuggestionRecord :=
  let st1 := mlLevel1 fetch keyword level1_count
  if enable_level2 then
    let st2 := mlLevel2 fetch keyword level2_count st1
    let st3 :=
      if enable_level3 then mlLevel3 fetch keyword level3_count st2 else st2
    st3.records
  else st1.records

/-- A suggestion source whose failures have been recovered into successful
empty answers: `recoverFetch fetch` answers `[]` wherever `fetch` raises. -/
def recoverFetch (fetch : String → Except Unit (List String)) :
    String → Except Unit (List String) :=
  fun q =>
    match fetch q with
    | .ok l => .ok l
    | .error _ => .ok []

/-- One raw question candidate handed to `consolidate_and_deduplicate`:
the fields `'Question Conversationnelle'`, `'Suggestion Google'` and
`'Mot-clé'` of the Python dict. -/
structure Candidate where
  question : String
  suggestion : String
  keyword : String
deriving Repr, DecidableEq

/-- One value of the Python dict `question_stats` built by
`consolidate_and_deduplicate` (app.py lines 247-260). -/
structure QStats where
  original_question : String
  count : Nat
  suggestions : List String
  keywords : List String
  first_occurrence : Candidate
deriving Repr, DecidableEq

/-- The normalised key a candidate is filed under: the question is first
`strip`ped (line 243), then normalised (line 245). -/
def candKey (item : Candidate) : String :=
  normalizeQ (pyStrip item.question)

/-- Fresh `question_stats` entry for a first-seen key (app.py lines 248-254). -/
def initStats (item : Candidate) : QStats :=
  { original_question := pyStrip item.question
    count := 1
    suggestions := [item.suggestion]
    keywords := [item.keyword]
    first_occurrence := item }

/-- Update of an existing `question_stats` entry (app.py lines 256-260):
bump the count, append the suggestion and keyword if not already present. -/
def bumpStats (st : QStats) (item : Candidate) : QStats :=
  { st with
    count := st.count + 1
    suggestions :=
      if item.suggestion ∈ st.suggestions then st.suggestions
      else st.suggestions ++ [item.suggestion]
    keywords :=
      if item.keyword ∈ st.keywords then st.keywords
      else st.keywords ++ [item.keyword] }

/-- Insert one candidate into the (insertion-ordered) `question_stats`
association list. -/
def updateStats : List (String × QStats) → Candidate → List (String × QStats)
  | [], item => [(candKey item, initStats item)]
  | (k, st) :: rest, item =>
    if k = candKey item then (k, bumpStats st item) :: rest
    else (k, st) :: updateStats rest item

/-- The full `question_stats` dict after scanning all candidates
(app.py lines 240-260), as an insertion-ordered association list. -/
def buildStats (questions_data : List Candidate) : List (String × QStats) :=
  questions_data.foldl updateStats []

/-- The comparison used by `sorted(..., key=lambda x: (x['count'],
len(x['keywords'])), reverse=True)` (app.py lines 262-267): `a` may stay
before `b` iff `a`'s key pair is lexicographically at least `b`'s, which
makes a stable merge sort reproduce Python's stable descending sort. -/
def statsGE (a b : QStats) : Bool :=
  b.count < a.count || (b.count = a.count && b.keywords.length ≤ a.keywords.length)

/-- One row of the returned list (app.py lines 272-279). -/
structure ConsolidatedItem where
  question : String
  suggestion : String
  keyword : String
  score : Nat
  nbKeywords : Nat
  nbSuggestions : Nat
deriving Repr, DecidableEq

/-- app.py lines 272-279: the output row built from one `question_stats`
value; `suggestions[0]` / `keywords[0]` are the heads of the (never empty)
lists. -/
def toItem (q : QStats) : ConsolidatedItem :=
  { question := q.original_question
    suggestion := q.suggestions.headD ""
    keyword := q.keywords.headD ""
    score := q.count
    nbKeywords := q.keywords.length
    nbSuggestions := q.suggestions.length }

/-- `consolidate_and_deduplicate(questions_data, target_count)`
(app.py lines 234-281). -/
def consolidate_and_deduplicate (questions_data : List Candidate)
    (target_count : Int) : List ConsolidatedItem :=
  if questions_data = [] then []
  else
    (pyTake (stableSort statsGE ((buildStats questions_data).map Prod.snd))
      target_count).map toItem

/-- One theme descriptor as consumed by `generate_questions_from_themes`
(app.py lines 663-732): the fields `nom`, `importance`, `intention` and
`concepts` of the LLM payload (`exemples_suggestions` only feeds the prompt
and is folded into the opaque generation function). -/
structure Theme where
  name : String
  importance : Nat
  intention : String
  concepts : List String
deriving Repr, DecidableEq

/-- One row of the list built by `generate_questions_from_themes`
(app.py lines 723-729). -/
structure GeneratedQuestion where
  question : String
  theme : String
  intention : String
  concepts : String
  scoreImportance : Nat
deriving Repr, DecidableEq

/-- app.py lines 723-729: the output row for one generated question. -/
def mkGeneratedQuestion (t : Theme) (q : String) : GeneratedQuestion :=
  { question := q
    theme := t.name
    intention := t.intention
    concepts := String.intercalate ", " t.concepts
    scoreImportance := t.importance }

/-- The per-theme loop of `generate_questions_from_themes` (app.py lines
677-731). `gen t k` models `call_gpt4o_mini` on the prompt for theme `t`
asking for `k` questions followed by `extract_questions_from_response`
(a failed call contributes `[]`); the loop takes at most `theme_questions`
of them (line 722) and decrements the remaining budget once per question
appended (line 730); `i == len(sorted_themes) - 1` is rendered as
`rest = []`. -/
def genLoop (gen : Theme → Nat → List String) (qpt : Nat) :
    List Theme → Nat → List GeneratedQuestion
  | [], _ => []
  | t :: rest, remaining =>
    if remaining = 0 then []
    else
      let theme_questions := if rest = [] then remaining else min qpt remaining
      if 0 < theme_questions then
        let qs := (gen t theme_questions).take theme_questions
        qs.map (mkGeneratedQuestion t) ++ genLoop gen qpt rest (remaining - qs.length)
      else genLoop gen qpt rest remaining

/-- `generate_questions_from_themes(keyword, themes, target_count)`
(app.py lines 663-732). The LLM client is modelled as always present (its
absence makes the whole function return `[]`, line 665); the keyword only
feeds the prompt, so it is folded into `gen`. Themes are sorted by
importance descending with a stable sort (line 669), the per-theme share is
`max(1, target_count // len(sorted_themes))` (line 672). -/
def generate_questions_from_themes (gen : Theme → Nat → List String)
    (themes : List Theme) (target_count : Int) : List GeneratedQuestion :=
  if themes = [] ∨ target_count ≤ 0 then []
  else
    let sorted_themes := stableSort (fun a b => decide (b.importance ≤ a.importance)) themes
    let questions_per_theme := max 1 (target_count.toNat / sorted_themes.length)
    genLoop gen questions_per_theme sorted_themes target_count.toNat

/-- Modelled from the claim's words: the allocation the claim describes —
each theme in importance-descending order except the last receives
`targetCount / themeCount` (integer division) questions, the last theme
absorbs the remainder. -/
def claimShares (themeCount targetCount : Nat) : List Nat :=
  List.replicate (themeCount - 1) (targetCount / themeCount)
    ++ [targetCount - (themeCount - 1) * (targetCount / themeCount)]

/-- Modelled from the claim's words: the output the claim predicts — for
each theme in importance-descending order, its allocated share of questions
(truncated to the share if the generator over-delivers). -/
def claimAllocation (gen : Theme → Nat → List String)
    (themes : List Theme) (target_count : Int) : List GeneratedQuestion :=
  let sorted_themes := stableSort (fun a b => decide (b.importance ≤ a.importance)) themes
  (List.zip sorted_themes (claimShares sorted_themes.length target_count.toNat)).flatMap
    (fun p => ((gen p.1 p.2).take p.2).map (mkGeneratedQuestion p.1))

/-- A generation stub that always delivers exactly the requested number of
questions, each labelled with the theme's name — used to exercise the
budget allocator on concrete inputs. -/
def c6Gen : Theme → Nat → List String :=
  fun t k => List.replicate k t.name

/-- Three themes of strictly decreasing importance — used to exercise the
budget allocator on concrete inputs. -/
def c6Themes : List Theme :=
  [⟨"A", 3, "informational", []⟩, ⟨"B", 2, "informational", []⟩,
    ⟨"C", 1, "informational", []⟩]

/-- The static configuration of `GoogleSuggestExtractor`
(1_advanced_scrap.py lines 38-92): the question prefixes, the suffix lists
(the values of the suffix-category dict in insertion order) and the
truncation bound `max_suggests_l1` used by `_get_suggestions`
(line 107 — it caps every call, including level-2 ones). -/
structure Extractor where
  prefixes : List String
  suffixes : List (List String)
  maxSuggestsL1 : Nat

/-- `GoogleSuggestExtractor._generate_queries(suggestion)`
(1_advanced_scrap.py lines 420-426): the direct suggestion, every
`prefix suggestion`, every `suggestion suffix`, with `list(set(...))`
duplicate removal. -/
def generateQueries (ex : Extractor) (suggestion : String) : List String :=
  ([suggestion] ++ ex.prefixes.map (fun p => p ++ " " ++ suggestion)
    ++ ex.suffixes.flatMap (fun sf => sf.map (fun suffix => suggestion ++ " " ++ suffix))).dedup

/-- Python `set.update`: add the new elements not already present,
modelling the set as a duplicate-free list. -/
def setUpdate (acc new : List String) : List String :=
  new.foldl (fun a s => if s ∈ a then a else a ++ [s]) acc

/-- One iteration of `GoogleSuggestExtractor.collect_level2_suggestions`
(1_advanced_scrap.py lines 248-267): skip a level-1 suggestion that already
has a `suggests_level2` entry; otherwise issue the not-yet-processed
queries, collect their suggestions into a set, discard the parent
suggestion itself, and store the entry. State: the `suggests_level2`
association list and the `processed_queries` set. -/
def collectLevel2Step (ex : Extractor)
    (fetch : String → Except Unit (List String))
    (st : List (String × List String) × List String)
    (suggestion : String) : List (String × List String) × List String :=
  if (st.1.lookup suggestion).isSome then st
  else
    let queries := (generateQueries ex suggestion).filter (fun q => q ∉ st.2)
    let processed_queries := st.2 ++ queries
    let level2_suggests := queries.foldl
      (fun a q => setUpdate a (get_google_suggestions fetch q ex.maxSuggestsL1)) []
    (st.1 ++ [(suggestion, level2_suggests.filter (fun x => x ≠ suggestion))],
      processed_queries)

/-- `GoogleSuggestExtractor.collect_level2_suggestions`
(1_advanced_scrap.py lines 241-276), run over one enumeration `level1` of
`results["suggests_level1"]` starting from the entries `level2_init` of
`results["suggests_level2"]`; returns the final `suggests_level2` map. -/
def collect_level2_suggestions (ex : Extractor)
    (fetch : String → Except Unit (List String))
    (level1 : List String) (level2_init : List (String × List String)) :
    List (String × List String) :=
  (level1.foldl (collectLevel2Step ex fetch) (level2_init, [])).1

/-- A small extractor configuration (one prefix, one suffix category) —
used to exercise the level-2 collection on concrete inputs. -/
def exW : Extractor := ⟨["comment"], [["avis"]], 10⟩

/-- A suggestion stub that always answers, and in particular returns the
parent suggestion `"hotel"` itself among the level-2 candidates — used to
exercise the parent-discard behaviour on concrete inputs. -/
def fW : String → Except Unit (List String) :=
  fun q => .ok [q ++ " x", "hotel", "spa"]

/-- The `cleaned_level2_suggests` dict of
`GoogleSuggestExtractor._generate_final_results`
(1_advanced_scrap.py lines 329-335): for each level-1 suggestion that has a
`suggests_level2` entry, the entry's elements as a set with the parent
suggestion itself discarded. -/
def cleanedLevel2 (level1 : List String)
    (level2 : List (String × List String)) : List (String × List String) :=
  level1.foldl
    (fun acc s =>
      match level2.lookup s with
      | some l => acc ++ [(s, (setUpdate [] l).filter (fun x => x ≠ s))]
      | none => acc)
    []

/-- The consolidated item produced for the key `"a"` from the candidates
`("A?", "s1", "k1")` and `("a", "s2", "k2")` — used to witness the
per-item invariants of the consolidator. -/
def c9WitnessItem : ConsolidatedItem :=
  { question := "A?", suggestion := "s1", keyword := "k1", score := 2,
    nbKeywords := 2, nbSuggestions := 2 }

/-- The dedup invariant of the multi-level collector state: the collected
records have pairwise distinct lowercased-trimmed texts, and every
collected text's normalised form is recorded in the visited set. -/
def MLInv (st : MLState) : Prop :=
  (st.records.map (fun r => normLowerTrim r.text)).Nodup
  ∧ ∀ r ∈ st.records, normLowerTrim r.text ∈ st.processed

/-- Left trim: drop leading whitespace. -/
def ltrim (l : List Char) : List Char :=
  l.dropWhile pyIsSpaceChar

/-- Right trim: drop trailing whitespace. -/
def rtrim (l : List Char) : List Char :=
  (l.reverse.dropWhile pyIsSpaceChar).reverse

/-- The consolidator's normalisation at the character-list level. -/
def normalizeL (d : List Char) : List Char :=
  pyStripList ((d.map pyLowerChar).filter pyIsKeptChar)

end ConvQueries

namespace ConvQueries

lemma char_toNat_ofNat_valid (n : Nat) (h : n < 55296) : (Char.ofNat n).toNat = n := by
  have hv : Nat.isValidChar n := Or.inl h
  simp only [Char.ofNat, hv, dif_pos, Char.ofNatAux, Char.toNat, UInt32.toNat]
  rfl

lemma pyLowerChar_idem (c : Char) : pyLowerChar (pyLowerChar c) = pyLowerChar c := by
  by_cases h : 65 ≤ c.toNat ∧ c.toNat ≤ 90
  · have ht : (Char.ofNat (c.toNat + 32)).toNat = c.toNat + 32 :=
      char_toNat_ofNat_valid _ (by omega)
    simp only [pyLowerChar, if_pos h, ht]
    rw [if_neg (by omega)]
  · simp only [pyLowerChar, if_neg h]

lemma dropWhile_dropWhile (p : α → Bool) (l : List α) :
    (l.dropWhile p).dropWhile p = l.dropWhile p := by
  induction l with
  | nil => rfl
  | cons a t ih => by_cases h : p a <;> simp [List.dropWhile_cons, h, ih]

lemma pyStripList_eq (l : List Char) : pyStripList l = rtrim (ltrim l) := rfl

lemma ltrim_ltrim (l : List Char) : ltrim (ltrim l) = ltrim l :=
  dropWhile_dropWhile _ l

lemma rtrim_rtrim (l : List Char) : rtrim (rtrim l) = rtrim l := by
  simp [rtrim, List.reverse_reverse, dropWhile_dropWhile]

lemma ltrim_rtrim (l : List Char) : ltrim (rtrim l) = rtrim (ltrim l) := by
  induction l with
  | nil => rfl
  | cons a t ih =>
    by_cases h : pyIsSpaceChar a
    · have h1 : ltrim (a :: t) = ltrim t := by simp [ltrim, List.dropWhile_cons, h]
      by_cases he : t.reverse.dropWhile pyIsSpaceChar = []
      · have hall : ∀ x ∈ t, pyIsSpaceChar x = true := by
          intro x hx
          exact List.dropWhile_eq_nil_iff.mp he x (List.mem_reverse.mpr hx)
        have h2 : rtrim (a :: t) = [] := by
          simp [rtrim, List.dropWhile_append, he, h]
        have h3 : ltrim t = [] := List.dropWhile_eq_nil_iff.mpr hall
        rw [h1, h2, h3]
        rfl
      · have h3 : rtrim (a :: t) = a :: rtrim t := by
          simp [rtrim, List.dropWhile_append, he]
        rw [h1, h3]
        have h4 : ltrim (a :: rtrim t) = ltrim (rtrim t) := by
          simp [ltrim, List.dropWhile_cons, h]
        rw [h4, ih]
    · have h1 : ltrim (a :: t) = a :: t := by simp [ltrim, List.dropWhile_cons, h]
      by_cases he : t.reverse.dropWhile pyIsSpaceChar = []
      · have h2 : rtrim (a :: t) = [a] := by
          simp [rtrim, List.dropWhile_append, he, h]
        rw [h1, h2]
        simp [ltrim, List.dropWhile_cons, h, rtrim, List.dropWhile_append, he]
      · have h3 : rtrim (a :: t) = a :: rtrim t := by
          simp [rtrim, List.dropWhile_append, he]
        rw [h1, h3]
        simp [ltrim, List.dropWhile_cons, h]

lemma pyStripList_idem (l : List Char) :
    pyStripList (pyStripList l) = pyStripList l := by
  show rtrim (ltrim (rtrim (ltrim l))) = rtrim (ltrim l)
  rw [ltrim_rtrim, rtrim_rtrim, ltrim_ltrim]

lemma mem_ltrim {c : Char} {l : List Char} (h : c ∈ ltrim l) : c ∈ l :=
  (List.dropWhile_sublist _).subset h

lemma mem_rtrim {c : Char} {l : List Char} (h : c ∈ rtrim l) : c ∈ l := by
  have hs : (l.reverse.dropWhile pyIsSpaceChar).Sublist l.reverse :=
    List.dropWhile_sublist _
  have := hs.subset (List.mem_reverse.mp h)
  exact List.mem_reverse.mp this

lemma mem_pyStripList {c : Char} {l : List Char} (h : c ∈ pyStripList l) : c ∈ l := by
  rw [pyStripList_eq] at h
  exact mem_ltrim (mem_rtrim h)

lemma normalizeL_idem (d : List Char) : normalizeL (normalizeL d) = normalizeL d := by
  have hlow : ∀ c ∈ (d.map pyLowerChar).filter pyIsKeptChar, pyLowerChar c = c := by
    intro c hc
    obtain ⟨x, _, rfl⟩ := List.mem_map.mp (List.mem_filter.mp hc).1
    exact pyLowerChar_idem x
  have hkeep : ∀ c ∈ (d.map pyLowerChar).filter pyIsKeptChar, pyIsKeptChar c = true :=
    fun c hc => (List.mem_filter.mp hc).2
  have h1 : (normalizeL d).map pyLowerChar = normalizeL d := by
    have := List.map_congr_left
      (fun a ha => hlow a (mem_pyStripList ha) : ∀ a ∈ normalizeL d, pyLowerChar a = id a)
    rw [this]
    simp
  have h2 : (normalizeL d).filter pyIsKeptChar = normalizeL d :=
    List.filter_eq_self.mpr (fun a ha => hkeep a (mem_pyStripList ha))
  show pyStripList (((normalizeL d).map pyLowerChar).filter pyIsKeptChar) = normalizeL d
  rw [h1, h2]
  exact pyStripList_idem _

lemma normalizeQ_eq_normalizeL (s : String) : normalizeQ s = ⟨normalizeL s.data⟩ := rfl

/-- C8: the normalisation used by `consolidate_and_deduplicate` (lowercase,
delete the characters matching `[^\w\s]`, trim) is idempotent: applying it
to an already-normalised string returns it unchanged. -/
theorem c8_normalizeQ_idempotent (s : String) :
    normalizeQ (normalizeQ s) = normalizeQ s := by
  rw [normalizeQ_eq_normalizeL, normalizeQ_eq_normalizeL]
  show (⟨normalizeL (normalizeL s.data)⟩ : String) = ⟨normalizeL s.data⟩
  rw [normalizeL_idem]

lemma updateStats_lookup_ne (stats : List (String × QStats)) (item : Candidate)
    {k : String} (h : k ≠ candKey item) :
    (updateStats stats item).lookup k = stats.lookup k := by
  have hb : (k == candKey item) = false := by simp [h]
  induction stats with
  | nil => simp [updateStats, List.lookup_cons, hb]
  | cons p rest ih =>
    obtain ⟨k', st'⟩ := p
    by_cases hk : k' = candKey item
    · subst hk
      simp [updateStats, List.lookup_cons, hb]
    · by_cases hkk : k = k'
      · subst hkk
        simp [updateStats, hk, List.lookup_cons]
      · have hb2 : (k == k') = false := by simp [hkk]
        simp [updateStats, hk, List.lookup_cons, hb2, ih]

lemma updateStats_lookup_none (stats : List (String × QStats)) (item : Candidate)
    (h : stats.lookup (candKey item) = none) :
    (updateStats stats item).lookup (candKey item) = some (initStats item) := by
  induction stats with
  | nil => simp [updateStats, List.lookup_cons]
  | cons p rest ih =>
    obtain ⟨k', st'⟩ := p
    by_cases hk : k' = candKey item
    · subst hk
      simp [List.lookup_cons] at h
    · have hb : (candKey item == k') = false := beq_eq_false_iff_ne.mpr (Ne.symm hk)
      simp only [List.lookup_cons, hb] at h
      simp only [updateStats, if_neg hk, List.lookup_cons, hb]
      exact ih h

lemma updateStats_lookup_some (stats : List (String × QStats)) (item : Candidate)
    {st : QStats} (h : stats.lookup (candKey item) = some st) :
    (updateStats stats item).lookup (candKey item) = some (bumpStats st item) := by
  induction stats with
  | nil => simp [List.lookup] at h
  | cons p rest ih =>
    obtain ⟨k', st'⟩ := p
    by_cases hk : k' = candKey item
    · subst hk
      simp [List.lookup_cons] at h
      subst h
      simp [updateStats, List.lookup_cons]
    · have hb : (candKey item == k') = false := beq_eq_false_iff_ne.mpr (Ne.symm hk)
      simp only [List.lookup_cons, hb] at h
      simp only [updateStats, if_neg hk, List.lookup_cons, hb]
      exact ih h

lemma updateStats_keys_mem (stats : List (String × QStats)) (item : Candidate)
    (h : candKey item ∈ stats.map Prod.fst) :
    (updateStats stats item).map Prod.fst = stats.map Prod.fst := by
  induction stats with
  | nil => simp at h
  | cons p rest ih =>
    obtain ⟨k', st'⟩ := p
    by_cases hk : k' = candKey item
    · simp only [updateStats, if_pos hk, List.map_cons]
    · simp only [List.map_cons, List.mem_cons] at h
      rcases h with h | h
      · exact absurd h.symm hk
      · simp only [updateStats, if_neg hk, List.map_cons, ih h]

lemma updateStats_keys_not_mem (stats : List (String × QStats)) (item : Candidate)
    (h : candKey item ∉ stats.map Prod.fst) :
    updateStats stats item = stats ++ [(candKey item, initStats item)] := by
  induction stats with
  | nil => simp [updateStats]
  | cons p rest ih =>
    obtain ⟨k', st'⟩ := p
    simp only [List.map_cons, List.mem_cons, not_or] at h
    have hk : ¬k' = candKey item := fun he => h.1 he.symm
    simp only [updateStats, if_neg hk, ih h.2, List.cons_append]

lemma buildStats_append (data : List Candidate) (c : Candidate) :
    buildStats (data ++ [c]) = updateStats (buildStats data) c := by
  simp [buildStats, List.foldl_append]

lemma buildStats_keys_mem (data : List Candidate) (k : String) :
    k ∈ (buildStats data).map Prod.fst ↔ k ∈ data.map candKey := by
  induction data using List.reverseRecOn with
  | nil => simp [buildStats]
  | append_singleton l c ih =>
    rw [buildStats_append]
    by_cases h : candKey c ∈ (buildStats l).map Prod.fst
    · rw [updateStats_keys_mem _ _ h, ih]
      simp only [List.map_append, List.mem_append, List.map_cons, List.map_nil,
        List.mem_singleton]
      constructor
      · exact Or.inl
      · rintro (hm | rfl)
        · exact hm
        · exact ih.mp h
    · rw [updateStats_keys_not_mem _ _ h]
      simp [ih]

lemma buildStats_keys_nodup (data : List Candidate) :
    ((buildStats data).map Prod.fst).Nodup := by
  induction data using List.reverseRecOn with
  | nil => simp [buildStats]
  | append_singleton l c ih =>
    rw [buildStats_append]
    by_cases h : candKey c ∈ (buildStats l).map Prod.fst
    · rw [updateStats_keys_mem _ _ h]
      exact ih
    · rw [updateStats_keys_not_mem _ _ h]
      rw [List.map_append, List.nodup_append]
      refine ⟨ih, by simp, ?_⟩
      intro a ha hb
      simp only [List.map_cons, List.map_nil, List.mem_singleton] at hb
      subst hb
      exact h ha

lemma lookup_none_iff (stats : List (String × QStats)) (k : String) :
    stats.lookup k = none ↔ k ∉ stats.map Prod.fst := by
  induction stats with
  | nil => simp [List.lookup]
  | cons p rest ih =>
    obtain ⟨k', st'⟩ := p
    by_cases hk : k = k'
    · subst hk
      simp [List.lookup_cons]
    · have hb : (k == k') = false := beq_eq_false_iff_ne.mpr hk
      simp [List.lookup_cons, hb, ih, hk]

lemma mem_lookup_of_nodup {stats : List (String × QStats)}
    (hn : (stats.map Prod.fst).Nodup) {k : String} {v : QStats}
    (h : (k, v) ∈ stats) : stats.lookup k = some v := by
  induction stats with
  | nil => simp at h
  | cons p rest ih =>
    obtain ⟨k', v'⟩ := p
    simp only [List.map_cons, List.nodup_cons] at hn
    rcases List.mem_cons.mp h with he | hm
    · obtain ⟨rfl, rfl⟩ := Prod.mk.injEq .. ▸ he
      simp [List.lookup_cons]
    · by_cases hk : k = k'
      · subst hk
        exact absurd (List.mem_map.mpr ⟨(k, v), hm, rfl⟩) hn.1
      · have hb : (k == k') = false := beq_eq_false_iff_ne.mpr hk
        simp only [List.lookup_cons, hb]
        exact ih hn.2 hm

lemma headD_append_ne_nil {l : List α} (h : l ≠ []) (x d : α) :
    (l ++ [x]).headD d = l.headD d := by
  cases l with
  | nil => exact absurd rfl h
  | cons a t => rfl

set_option maxHeartbeats 1000000 in
lemma buildStats_lookup_spec (data : List Candidate) (k : String) {st : QStats}
    (h : (buildStats data).lookup k = some st) :
    st.count = data.countP (fun c => candKey c == k)
    ∧ st.keywords.length ≤ st.count
    ∧ st.suggestions.length ≤ st.count
    ∧ 1 ≤ st.keywords.length
    ∧ 1 ≤ st.suggestions.length
    ∧ ∃ c, data.find? (fun c => candKey c == k) = some c
        ∧ st.original_question = pyStrip c.question
        ∧ st.suggestions.headD "" = c.suggestion
        ∧ st.keywords.headD "" = c.keyword := by
  induction data using List.reverseRecOn generalizing st with
  | nil => simp [buildStats, List.lookup] at h
  | append_singleton l c ih =>
    rw [buildStats_append] at h
    by_cases hk : k = candKey c
    · subst hk
      cases hl : (buildStats l).lookup (candKey c) with
      | none =>
        rw [updateStats_lookup_none _ _ hl] at h
        obtain rfl : initStats c = st := Option.some.inj h
        have hmem : candKey c ∉ l.map candKey :=
          fun hm => (lookup_none_iff _ _).mp hl ((buildStats_keys_mem l _).mpr hm)
        have hnone : ∀ a ∈ l, ¬(candKey a == candKey c) = true := by
          intro a ha hb
          exact hmem (List.mem_map.mpr ⟨a, ha, beq_iff_eq.mp hb⟩)
        have hcount : l.countP (fun c' => candKey c' == candKey c) = 0 :=
          List.countP_eq_zero.mpr hnone
        have hfind : l.find? (fun c' => candKey c' == candKey c) = none :=
          List.find?_eq_none.mpr hnone
        refine ⟨?_, ?_, ?_, ?_, ?_, c, ?_, rfl, rfl, rfl⟩
        · rw [List.countP_append, hcount]
          simp [initStats]
        · simp [initStats]
        · simp [initStats]
        · simp [initStats]
        · simp [initStats]
        · rw [List.find?_append, hfind]
          simp
      | some st0 =>
        rw [updateStats_lookup_some _ _ hl] at h
        obtain rfl : bumpStats st0 c = st := Option.some.inj h
        obtain ⟨ihc, ihk, ihs, ihk1, ihs1, c0, hfind, hq, hsg, hkw⟩ := ih hl
        have hcnt : (bumpStats st0 c).count = st0.count + 1 := rfl
        refine ⟨?_, ?_, ?_, ?_, ?_, c0, ?_, ?_, ?_, ?_⟩
        · rw [hcnt, ihc, List.countP_append]
          simp
        · rw [hcnt]
          by_cases hm : c.keyword ∈ st0.keywords
          · simp only [bumpStats, if_pos hm]
            omega
          · simp only [bumpStats, if_neg hm, List.length_append]
            simp
            omega
        · rw [hcnt]
          by_cases hm : c.suggestion ∈ st0.suggestions
          · simp only [bumpStats, if_pos hm]
            omega
          · simp only [bumpStats, if_neg hm, List.length_append]
            simp
            omega
        · by_cases hm : c.keyword ∈ st0.keywords
          · simpa only [bumpStats, if_pos hm] using ihk1
          · simp only [bumpStats, if_neg hm, List.length_append]
            simp
        · by_cases hm : c.suggestion ∈ st0.suggestions
          · simpa only [bumpStats, if_pos hm] using ihs1
          · simp only [bumpStats, if_neg hm, List.length_append]
            simp
        · rw [List.find?_append, hfind]
          rfl
        · exact hq
        · by_cases hm : c.suggestion ∈ st0.suggestions
          · simpa only [bumpStats, if_pos hm] using hsg
          · simp only [bumpStats, if_neg hm]
            rw [headD_append_ne_nil (List.length_pos.mp ihs1)]
            exact hsg
        · by_cases hm : c.keyword ∈ st0.keywords
          · simpa only [bumpStats, if_pos hm] using hkw
          · simp only [bumpStats, if_neg hm]
            rw [headD_append_ne_nil (List.length_pos.mp ihk1)]
            exact hkw
    · rw [updateStats_lookup_ne _ _ hk] at h
      obtain ⟨ihc, ihk, ihs, ihk1, ihs1, c0, hfind, hq, hsg, hkw⟩ := ih h
      have hb : (candKey c == k) = false := beq_eq_false_iff_ne.mpr (Ne.symm hk)
      refine ⟨?_, ihk, ihs, ihk1, ihs1, c0, ?_, hq, hsg, hkw⟩
      · rw [ihc, List.countP_append]
        simp [hb]
      · rw [List.find?_append, hfind]
        rfl

lemma updateStats_countSum (stats : List (String × QStats)) (item : Candidate) :
    ((updateStats stats item).map (fun p => p.2.count)).sum
      = (stats.map (fun p => p.2.count)).sum + 1 := by
  induction stats with
  | nil => simp [updateStats, initStats]
  | cons p rest ih =>
    obtain ⟨k', st'⟩ := p
    by_cases hk : k' = candKey item
    · simp [updateStats, if_pos hk, bumpStats, List.sum_cons]
      omega
    · simp [updateStats, if_neg hk, List.sum_cons, ih]
      omega

lemma buildStats_countSum (data : List Candidate) :
    ((buildStats data).map (fun p => p.2.count)).sum = data.length := by
  induction data using List.reverseRecOn with
  | nil => simp [buildStats]
  | append_singleton l c ih =>
    rw [buildStats_append, updateStats_countSum, ih]
    simp

lemma pyTake_of_nonneg (l : List α) {t : Int} (h : 0 ≤ t) :
    pyTake l t = l.take t.toNat := by
  simp [pyTake, h]

lemma pyTake_subset (l : List α) (t : Int) : pyTake l t ⊆ l := by
  unfold pyTake
  split <;> exact List.take_subset _ _

lemma stableInsert_perm (ge : α → α → Bool) (x : α) (l : List α) :
    (stableInsert ge x l).Perm (x :: l) := by
  induction l with
  | nil => exact List.Perm.refl _
  | cons y ys ih =>
    by_cases h : ge x y
    · simp [stableInsert, h]
    · simp only [stableInsert, if_neg h]
      exact ((ih.cons y).trans (List.Perm.swap x y ys))

lemma stableSort_perm (ge : α → α → Bool) (l : List α) :
    (stableSort ge l).Perm l := by
  induction l with
  | nil => exact List.Perm.refl _
  | cons x xs ih =>
    exact (stableInsert_perm ge x (stableSort ge xs)).trans (ih.cons x)

lemma stableSort_length (ge : α → α → Bool) (l : List α) :
    (stableSort ge l).length = l.length :=
  (stableSort_perm ge l).length_eq

lemma buildStats_length (data : List Candidate) :
    (buildStats data).length = (data.map candKey).dedup.length := by
  have h1 : (buildStats data).length = ((buildStats data).map Prod.fst).length :=
    (List.length_map _ _).symm
  rw [h1, ← List.toFinset_card_of_nodup (buildStats_keys_nodup data),
    ← List.card_toFinset]
  congr 1
  ext a
  rw [List.mem_toFinset, List.mem_toFinset]
  exact buildStats_keys_mem data a

/-- C2 (amended with `0 ≤ targetCount`): the length of the returned list is
`min targetCount (number of distinct normalised keys among the candidates)`;
in particular an empty candidate list or `targetCount = 0` gives the empty
list, and fewer unique items than `targetCount` gives all of them.
(For negative `targetCount` the code inherits Python's negative-slice
behaviour instead of returning the empty list — see the counterexample.) -/
theorem c2_truncation_length (data : List Candidate) (t : Int) (h : 0 ≤ t) :
    (consolidate_and_deduplicate data t).length
      = min t.toNat (data.map candKey).dedup.length := by
  by_cases hd : data = []
  · subst hd
    simp [consolidate_and_deduplicate]
  · rw [consolidate_and_deduplicate, if_neg hd]
    rw [List.length_map, pyTake_of_nonneg _ h, List.length_take,
      stableSort_length, List.length_map, buildStats_length]

/-- C2 counterexample: the claim says any `targetCount ≤ 0` yields the
empty list, but Python's slice `sorted_questions[:target_count]` with
`target_count = -1` drops only the last element: on two distinct candidates
the result is non-empty. -/
theorem c2_counterexample :
    consolidate_and_deduplicate [⟨"a", "s", "k"⟩, ⟨"b", "s", "k"⟩] (-1) ≠ [] := by
  decide

/-- Witness for the amended C2: three candidates with two distinct
normalised keys and `targetCount = 5` give `min 5 2 = 2` items. -/
theorem c2_truncation_length_witness :
    (0 : Int) ≤ 5
    ∧ (consolidate_and_deduplicate
        [⟨"A?", "s1", "k1"⟩, ⟨"a", "s2", "k2"⟩, ⟨"b", "s3", "k1"⟩] 5).length
      = min (5 : Int).toNat
          (([⟨"A?", "s1", "k1"⟩, ⟨"a", "s2", "k2"⟩, ⟨"b", "s3", "k1"⟩] :
            List Candidate).map candKey).dedup.length :=
  ⟨by decide, c2_truncation_length _ 5 (by decide)⟩

/-- C3 (amended with `number of distinct keys ≤ targetCount`, i.e. nothing
is cut off by truncation): the occurrence counts (`Score_Pertinence`) of
the returned items sum to the number of raw candidates. Truncation breaks
the general statement — see the counterexample. -/
theorem c3_conservation (data : List Candidate) (t : Int)
    (h : ((data.map candKey).dedup.length : Int) ≤ t) :
    ((consolidate_and_deduplicate data t).map ConsolidatedItem.score).sum
      = data.length := by
  by_cases hd : data = []
  · subst hd
    simp [consolidate_and_deduplicate]
  · have ht0 : (0 : Int) ≤ t := le_trans (by positivity) h
    rw [consolidate_and_deduplicate, if_neg hd, pyTake_of_nonneg _ ht0]
    have hlen : (stableSort statsGE ((buildStats data).map Prod.snd)).length
        ≤ t.toNat := by
      rw [stableSort_length, List.length_map, buildStats_length]
      have := Int.toNat_le_toNat h
      rwa [Int.toNat_natCast] at this
    rw [List.take_of_length_le hlen]
    have hperm : (stableSort statsGE ((buildStats data).map Prod.snd)).map
          (fun st => st.count)
        |>.Perm (((buildStats data).map Prod.snd).map (fun st => st.count)) :=
      List.Perm.map _ (stableSort_perm _ _)
    have hsum := hperm.sum_eq
    have hmap : ∀ l : List QStats,
        (l.map toItem).map ConsolidatedItem.score = l.map (fun st => st.count) := by
      intro l
      rw [List.map_map]
      rfl
    rw [hmap, hsum, List.map_map]
    exact buildStats_countSum data

/-- C3 counterexample: with two distinct candidates and `targetCount = 1`
the second item is truncated away, so the scores of the returned items sum
to 1, not to the input length 2. -/
theorem c3_counterexample :
    ((consolidate_and_deduplicate [⟨"a", "s", "k"⟩, ⟨"b", "s", "k"⟩] 1).map
        ConsolidatedItem.score).sum
      ≠ ([⟨"a", "s", "k"⟩, ⟨"b", "s", "k"⟩] : List Candidate).length := by
  decide

/-- Witness for the amended C3: three candidates, two distinct keys,
`targetCount = 5 ≥ 2`: the scores sum to 3. -/
theorem c3_conservation_witness :
    ((([⟨"A?", "s1", "k1"⟩, ⟨"a", "s2", "k2"⟩, ⟨"b", "s3", "k1"⟩] :
        List Candidate).map candKey).dedup.length : Int) ≤ 5
    ∧ ((consolidate_and_deduplicate
        [⟨"A?", "s1", "k1"⟩, ⟨"a", "s2", "k2"⟩, ⟨"b", "s3", "k1"⟩] 5).map
        ConsolidatedItem.score).sum
      = ([⟨"A?", "s1", "k1"⟩, ⟨"a", "s2", "k2"⟩, ⟨"b", "s3", "k1"⟩] :
          List Candidate).length :=
  ⟨by decide, c3_conservation _ 5 (by decide)⟩

/-- C7 (amended: the code's normalisation keeps underscores, since Python's
`\w` is `[A-Za-z0-9_]`, so "every character that is not alphanumeric,
underscore or whitespace" is removed): candidates are merged iff their
normalised forms (`candKey`, an exact string equality — no fuzzy matching)
are equal: the `question_stats` table has exactly one entry per distinct
normalised key occurring in the input, and each entry counts exactly the
candidates whose normalised key equals its key. -/
theorem c7_merge_iff_normalized_eq (data : List Candidate) :
    ((buildStats data).map Prod.fst).Nodup
    ∧ (∀ k, k ∈ (buildStats data).map Prod.fst ↔ k ∈ data.map candKey)
    ∧ (∀ k st, (buildStats data).lookup k = some st →
        st.count = data.countP (fun c => candKey c == k)) :=
  ⟨buildStats_keys_nodup data, fun k => buildStats_keys_mem data k,
    fun _ _ h => (buildStats_lookup_spec data _ h).1⟩

/-- C7 counterexample: under the spec's wording of the normalisation
(remove every character that is not alphanumeric or whitespace) the
candidates `"a_b"` and `"ab"` have equal normalised forms, yet the code
keeps the underscore (`\w`) and produces two separate consolidated items. -/
theorem c7_counterexample :
    specNormalizeQ "a_b" = specNormalizeQ "ab"
    ∧ (consolidate_and_deduplicate [⟨"a_b", "s1", "k1"⟩, ⟨"ab", "s2", "k2"⟩] 10).length
      = 2 := by
  decide

/-- Witness for the amended C7: `"A?"` and `"a"` share the normalised key
`"a"`, and the single entry under that key counts both candidates. -/
theorem c7_merge_witness :
    ({ original_question := "A?", count := 2, suggestions := ["s1", "s2"],
       keywords := ["k1", "k2"],
       first_occurrence := ⟨"A?", "s1", "k1"⟩ } : QStats).count
      = ([⟨"A?", "s1", "k1"⟩, ⟨"a", "s2", "k2"⟩] : List Candidate).countP
          (fun c => candKey c == "a") :=
  (c7_merge_iff_normalized_eq [⟨"A?", "s1", "k1"⟩, ⟨"a", "s2", "k2"⟩]).2.2 "a" _
    (by decide)

/-- C9: every returned item has `Score_Pertinence ≥ Nb_Keywords`,
`Score_Pertinence ≥ Nb_Suggestions`, all three at least 1, and its
displayed question, suggestion and keyword come from the first candidate
in input order whose normalised key is the item's key. -/
theorem c9_item_invariants (data : List Candidate) (t : Int)
    (item : ConsolidatedItem) (h : item ∈ consolidate_and_deduplicate data t) :
    item.nbKeywords ≤ item.score
    ∧ item.nbSuggestions ≤ item.score
    ∧ 1 ≤ item.nbKeywords
    ∧ 1 ≤ item.nbSuggestions
    ∧ 1 ≤ item.score
    ∧ ∃ c, data.find? (fun c' => candKey c' == candKey c) = some c
        ∧ item.question = pyStrip c.question
        ∧ item.suggestion = c.suggestion
        ∧ item.keyword = c.keyword := by
  by_cases hd : data = []
  · subst hd
    simp [consolidate_and_deduplicate] at h
  · rw [consolidate_and_deduplicate, if_neg hd] at h
    obtain ⟨st, hst, rfl⟩ := List.mem_map.mp h
    have hst2 : st ∈ stableSort statsGE ((buildStats data).map Prod.snd) :=
      pyTake_subset _ _ hst
    have hst3 : st ∈ (buildStats data).map Prod.snd :=
      (stableSort_perm _ _).mem_iff.mp hst2
    obtain ⟨⟨k, st'⟩, hp, hsnd⟩ := List.mem_map.mp hst3
    simp only at hsnd
    subst hsnd
    have hlook : (buildStats data).lookup k = some st' :=
      mem_lookup_of_nodup (buildStats_keys_nodup data) hp
    obtain ⟨hc, hkc, hsc, hk1, hs1, c, hfind, hq, hsg, hkw⟩ :=
      buildStats_lookup_spec data k hlook
    have hkey := List.find?_some hfind
    simp only [beq_iff_eq] at hkey
    refine ⟨hkc, hsc, hk1, hs1, le_trans hk1 hkc, c, ?_, hq, hsg, hkw⟩
    rw [hkey]
    exact hfind

/-- Witness for C9 at a concrete input: the consolidated item for the key
`"a"` displays the first-seen question `"A?"`, suggestion `"s1"` and
keyword `"k1"`, with score 2. -/
theorem c9_item_invariants_witness :
    c9WitnessItem
      ∈ consolidate_and_deduplicate [⟨"A?", "s1", "k1"⟩, ⟨"a", "s2", "k2"⟩] 5
    ∧ (c9WitnessItem.nbKeywords ≤ c9WitnessItem.score
      ∧ c9WitnessItem.nbSuggestions ≤ c9WitnessItem.score
      ∧ 1 ≤ c9WitnessItem.nbKeywords
      ∧ 1 ≤ c9WitnessItem.nbSuggestions
      ∧ 1 ≤ c9WitnessItem.score
      ∧ ∃ c, ([⟨"A?", "s1", "k1"⟩, ⟨"a", "s2", "k2"⟩] : List Candidate).find?
            (fun c' => candKey c' == candKey c) = some c
          ∧ c9WitnessItem.question = pyStrip c.question
          ∧ c9WitnessItem.suggestion = c.suggestion
          ∧ c9WitnessItem.keyword = c.keyword) :=
  ⟨by decide, c9_item_invariants [⟨"A?", "s1", "k1"⟩, ⟨"a", "s2", "k2"⟩] 5
    c9WitnessItem (by decide)⟩

lemma foldl_inv {β : Type u} {α : Type v} {P : β → Prop} {f : β → α → β}
    (hf : ∀ b a, P b → P (f b a)) (l : List α) (b : β) (hb : P b) :
    P (l.foldl f b) := by
  induction l generalizing b with
  | nil => exact hb
  | cons x xs ih => exact ih _ (hf b x hb)

lemma mlInsert_inv (kw : String) (lvl : Nat) (p : String) (tr : Bool)
    (st : MLState) (s : String) (h : MLInv st) :
    MLInv (mlInsert kw lvl p tr st s) := by
  obtain ⟨h1, h2⟩ := h
  unfold mlInsert
  by_cases hm : normLowerTrim s ∈ st.processed
  · simp only [if_pos hm]
    exact ⟨h1, h2⟩
  · simp only [if_neg hm]
    constructor
    · rw [List.map_append, List.nodup_append]
      refine ⟨h1, by simp, ?_⟩
      intro a ha hb
      simp only [List.map_cons, List.map_nil, List.mem_singleton] at hb
      subst hb
      obtain ⟨r, hr, hra⟩ := List.mem_map.mp ha
      exact hm (hra ▸ h2 r hr)
    · intro r hr
      rcases List.mem_append.mp hr with hr | hr
      · exact List.mem_append_left _ (h2 r hr)
      · simp only [List.mem_singleton] at hr
        subst hr
        simp

lemma mlLevel1_inv (fetch : String → Except Unit (List String))
    (kw : String) (l1 : Nat) : MLInv (mlLevel1 fetch kw l1) := by
  apply foldl_inv (fun b a hb => mlInsert_inv _ _ _ _ _ _ hb)
  constructor
  · simp
  · intro r hr
    simp only [List.mem_singleton] at hr
    subst hr
    simp

lemma mlLevel2_inv (fetch : String → Except Unit (List String))
    (kw : String) (l2 : Nat) (st : MLState) (h : MLInv st) :
    MLInv (mlLevel2 fetch kw l2 st) :=
  foldl_inv
    (fun b p hb => foldl_inv (fun b' s hb' => mlInsert_inv _ _ _ _ _ _ hb') _ _ hb)
    _ _ h

lemma mlLevel3_inv (fetch : String → Except Unit (List String))
    (kw : String) (l3 : Nat) (st : MLState) (h : MLInv st) :
    MLInv (mlLevel3 fetch kw l3 st) :=
  foldl_inv
    (fun b p hb => foldl_inv (fun b' s hb' => mlInsert_inv _ _ _ _ _ _ hb') _ _ hb)
    _ _ h

/-- C1: for every suggestion source and every configuration, no two records
returned by `get_google_suggestions_multilevel` (the level-0 seed record
included) have the same text after lowercasing and trimming: the shared
visited set drops any candidate equal, case-insensitively and after
trimming, to anything already collected, at every level. -/
theorem c1_dedup_invariant (fetch : String → Except Unit (List String))
    (keyword : String) (l1 l2 l3 : Nat) (en2 en3 : Bool) :
    ((get_google_suggestions_multilevel fetch keyword l1 l2 l3 en2 en3).map
      (fun r => normLowerTrim r.text)).Nodup := by
  have h1 := mlLevel1_inv fetch keyword l1
  by_cases h2 : en2
  · by_cases h3 : en3
    · have h :=
        mlLevel3_inv fetch keyword l3 _ (mlLevel2_inv fetch keyword l2 _ h1)
      simpa [get_google_suggestions_multilevel, h2, h3] using h.1
    · have h := mlLevel2_inv fetch keyword l2 _ h1
      simpa [get_google_suggestions_multilevel, h2, h3] using h.1
  · simpa [get_google_suggestions_multilevel, h2] using h1.1

lemma mlLevel1_levels (fetch : String → Except Unit (List String))
    (kw : String) (l1 : Nat) :
    ∀ r ∈ (mlLevel1 fetch kw l1).records, r.level ≤ 1 := by
  unfold mlLevel1
  refine @foldl_inv _ _ (fun st : MLState => ∀ r ∈ st.records, r.level ≤ 1)
    _ ?_ _ _ ?_
  · intro b a hb
    unfold mlInsert
    by_cases hm : normLowerTrim a ∈ b.processed
    · simpa [hm] using hb
    · simp only [if_neg hm]
      intro r hr
      rcases List.mem_append.mp hr with hr | hr
      · exact hb r hr
      · simp only [List.mem_singleton] at hr
        subst hr
        simp
  · intro r hr
    simp only [List.mem_singleton] at hr
    subst hr
    simp

/-- C4: with level 2 disabled the collector returns no record of level 2 or
level 3, whatever `enable_level3` and `level3_count` are, and the run is
identical to one with level 3 disabled as well — the level-3 request is
silently normalised away, no error is raised. -/
theorem c4_level3_gating (fetch : String → Except Unit (List String))
    (keyword : String) (l1 l2 l3 : Nat) (en3 : Bool) :
    (get_google_suggestions_multilevel fetch keyword l1 l2 l3 false en3).filter
      (fun r => 2 ≤ r.level) = []
    ∧ get_google_suggestions_multilevel fetch keyword l1 l2 l3 false en3
      = get_google_suggestions_multilevel fetch keyword l1 l2 l3 false false := by
  constructor
  · simp only [get_google_suggestions_multilevel, Bool.false_eq_true, if_false]
    rw [List.filter_eq_nil_iff]
    intro r hr
    have hl := mlLevel1_levels fetch keyword l1 r hr
    simp only [decide_eq_true_eq]
    omega
  · rfl

lemma get_google_suggestions_recover (fetch : String → Except Unit (List String))
    (q : String) (n : Nat) :
    get_google_suggestions (recoverFetch fetch) q n
      = get_google_suggestions fetch q n := by
  unfold get_google_suggestions recoverFetch
  cases fetch q <;> simp

/-- C5: a suggestion call that raises is equivalent to one that answers the
empty list: the whole collection run with the recovered source (every
failure replaced by a successful empty answer) is identical to the run with
the failing source. Hence a failing call contributes an empty suggestion
list for its branch only, sibling branches are expanded exactly as if the
failure had not happened, and the collector always returns normally. -/
theorem c5_failure_isolation (fetch : String → Except Unit (List String))
    (keyword : String) (l1 l2 l3 : Nat) (en2 en3 : Bool) :
    get_google_suggestions_multilevel (recoverFetch fetch) keyword l1 l2 l3 en2 en3
      = get_google_suggestions_multilevel fetch keyword l1 l2 l3 en2 en3 := by
  simp only [get_google_suggestions_multilevel, mlLevel1, mlLevel2, mlLevel3,
    get_google_suggestions_recover]

lemma genLoop_exact (gen : Theme → Nat → List String) (qpt : Nat)
    (hq : 1 ≤ qpt) (hgen : ∀ t k, k ≤ (gen t k).length) :
    ∀ (ts : List Theme) (r : Nat), ts ≠ [] → ts.length * qpt ≤ r →
    genLoop gen qpt ts r
      = (List.zip ts (List.replicate (ts.length - 1) qpt
          ++ [r - (ts.length - 1) * qpt])).flatMap
          (fun p => ((gen p.1 p.2).take p.2).map (mkGeneratedQuestion p.1))
      ∧ (genLoop gen qpt ts r).length = r := by
  intro ts
  induction ts with
  | nil => exact fun r h => absurd rfl h
  | cons t rest ih =>
    intro r _ hr
    cases rest with
    | nil =>
      have hr1 : 1 ≤ r := le_trans hq (by simpa using hr)
      have hrne : ¬(r = 0) := by omega
      have hlen : ((gen t r).take r).length = r := by
        rw [List.length_take]
        exact min_eq_left (hgen t r)
      have hlhs : genLoop gen qpt [t] r
          = ((gen t r).take r).map (mkGeneratedQuestion t) := by
        simp only [genLoop, if_neg hrne, if_pos rfl, if_pos (by omega : 0 < r)]
        simp only [genLoop, List.append_nil]
        simp only [if_true]
        rw [if_pos (by omega : 0 < r)]
      have hrhs : (List.zip [t] (List.replicate ([t].length - 1) qpt
            ++ [r - ([t].length - 1) * qpt])).flatMap
            (fun p => ((gen p.1 p.2).take p.2).map (mkGeneratedQuestion p.1))
          = ((gen t r).take r).map (mkGeneratedQuestion t) := by
        simp
      exact ⟨by rw [hlhs, hrhs], by rw [hlhs, List.length_map, hlen]⟩
    | cons t' rest' =>
      have hmul : (t' :: rest').length * qpt + qpt ≤ r := by
        have he : ((t :: t' :: rest').length) * qpt
            = (t' :: rest').length * qpt + qpt := by
          simp [List.length_cons]
          ring
        omega
      have hqr : qpt ≤ r := by omega
      have hrne : ¬(r = 0) := by omega
      have hne2 : (t' :: rest') ≠ [] := by simp
      have hlen : ((gen t qpt).take qpt).length = qpt := by
        rw [List.length_take]
        exact min_eq_left (hgen t qpt)
      have hrec : (t' :: rest').length * qpt ≤ r - qpt := by omega
      obtain ⟨ihe, ihl⟩ := ih (r - qpt) hne2 hrec
      have hmin : min qpt r = qpt := min_eq_left hqr
      have hstep : genLoop gen qpt (t :: t' :: rest') r
          = ((gen t qpt).take qpt).map (mkGeneratedQuestion t)
            ++ genLoop gen qpt (t' :: rest') (r - qpt) := by
        simp only [genLoop, if_neg hrne]
        rw [if_neg (by simp : ¬(t' :: rest' = []))]
        rw [hmin, if_pos (by omega : 0 < qpt), hlen]
      have hshare : r - qpt - ((t' :: rest').length - 1) * qpt
          = r - ((t :: t' :: rest').length - 1) * qpt := by
        have h1 : (t' :: rest').length - 1 + 1 = (t :: t' :: rest').length - 1 := by
          simp
        have h2 : ((t' :: rest').length - 1 + 1) * qpt
            = ((t' :: rest').length - 1) * qpt + qpt := by ring
        have h3 : ((t' :: rest').length - 1) * qpt + qpt ≤ r := by
          have h4 : (t' :: rest').length - 1 + 1 = (t' :: rest').length := by simp
          have h5 : ((t' :: rest').length - 1 + 1) * qpt
              = ((t' :: rest').length - 1) * qpt + qpt := by ring
          rw [h4] at h5
          omega
        rw [← h1, h2]
        omega
      constructor
      · rw [hstep, ihe, hshare]
        have hrep : List.replicate ((t :: t' :: rest').length - 1) qpt
            = qpt :: List.replicate ((t' :: rest').length - 1) qpt := by
          simp [List.replicate_succ]
        rw [hrep]
        simp [List.zip_cons_cons, List.flatMap_cons]
      · rw [hstep]
        simp only [List.length_append, List.length_map, hlen, ihl]
        omega

/-- C6 (amended with `themeCount ≤ targetCount`): when the budget is at
least one question per theme, each theme in importance-descending order
except the last receives `targetCount / themeCount` (integer division)
questions, the last theme absorbs the remainder, and — provided each
per-theme generation call returns at least as many questions as requested —
the total number of questions equals `targetCount` exactly.  (When
`0 < targetCount < themeCount` the code gives one question each to the
first `targetCount` themes instead, because the per-theme share is
`max(1, targetCount // themeCount)` — see the counterexample.) -/
theorem c6_budget_allocation (gen : Theme → Nat → List String)
    (themes : List Theme) (tc : Int) (hne : themes ≠ [])
    (hn : (themes.length : Int) ≤ tc)
    (hgen : ∀ t k, k ≤ (gen t k).length) :
    generate_questions_from_themes gen themes tc = claimAllocation gen themes tc
    ∧ (generate_questions_from_themes gen themes tc).length = tc.toNat := by
  have hlen0 : 0 < themes.length := List.length_pos.mpr hne
  have hlen0i : (0 : Int) < themes.length := by exact_mod_cast hlen0
  have htc0 : ¬(tc ≤ 0) := by omega
  have hslen : (stableSort (fun a b => decide (b.importance ≤ a.importance))
      themes).length = themes.length := stableSort_length _ _
  have hsne : stableSort (fun a b => decide (b.importance ≤ a.importance))
      themes ≠ [] := by
    intro h0
    rw [h0] at hslen
    simp at hslen
    omega
  have htn : themes.length ≤ tc.toNat := by
    have := Int.toNat_le_toNat hn
    rwa [Int.toNat_natCast] at this
  have hdiv1 : 1 ≤ tc.toNat / themes.length :=
    (Nat.one_le_div_iff hlen0).mpr htn
  have hmulle : themes.length * (tc.toNat / themes.length) ≤ tc.toNat := by
    rw [Nat.mul_comm]
    exact Nat.div_mul_le_self _ _
  obtain ⟨heq, hlen⟩ := genLoop_exact gen (tc.toNat / themes.length) hdiv1 hgen
    (stableSort (fun a b => decide (b.importance ≤ a.importance)) themes)
    tc.toNat hsne (by rw [hslen]; exact hmulle)
  have hguard : ¬(themes = [] ∨ tc ≤ 0) := by
    rintro (h | h)
    · exact hne h
    · exact htc0 h
  have hqpt : max 1 (tc.toNat
      / (stableSort (fun a b => decide (b.importance ≤ a.importance))
        themes).length) = tc.toNat / themes.length := by
    rw [hslen]
    exact max_eq_right hdiv1
  constructor
  · rw [generate_questions_from_themes, if_neg hguard]
    simp only [hqpt]
    rw [heq, claimAllocation, claimShares, hslen]
  · rw [generate_questions_from_themes, if_neg hguard]
    simp only [hqpt]
    exact hlen

/-- C6 counterexample: with 3 themes and `targetCount = 2` the integer
share `2 / 3 = 0` would, per the claim, give the two non-last themes
nothing and the last (least important) theme both questions; the code uses
`max(1, 2 // 3) = 1`, gives one question each to the two most important
themes and nothing to the last. -/
theorem c6_counterexample :
    (generate_questions_from_themes c6Gen c6Themes 2).map GeneratedQuestion.theme
      = ["A", "B"]
    ∧ (claimAllocation c6Gen c6Themes 2).map GeneratedQuestion.theme
      = ["C", "C"] := by
  decide

/-- Witness for the amended C6: 3 themes, `targetCount = 10`, a generous
generator: shares are `[3, 3, 4]` in importance-descending order and the
output has exactly 10 questions. -/
theorem c6_budget_allocation_witness :
    generate_questions_from_themes c6Gen c6Themes 10
      = claimAllocation c6Gen c6Themes 10
    ∧ (generate_questions_from_themes c6Gen c6Themes 10).length
      = (10 : Int).toNat :=
  ⟨(c6_budget_allocation c6Gen c6Themes 10 (by decide) (by decide)
      (fun t k => by simp [c6Gen])).1,
    (c6_budget_allocation c6Gen c6Themes 10 (by decide) (by decide)
      (fun t k => by simp [c6Gen])).2⟩

lemma lookup_append_some {α : Type u} {β : Type v} [BEq α]
    {l l' : List (α × β)} {k : α} {v : β} (h : l.lookup k = some v) :
    (l ++ l').lookup k = some v := by
  induction l with
  | nil => simp [List.lookup] at h
  | cons p rest ih =>
    obtain ⟨k', v'⟩ := p
    rw [List.cons_append]
    cases hb : k == k' <;>
      simp only [List.lookup_cons, hb] at h ⊢
    · exact ih h
    · exact h

lemma lookup_append_none {α : Type u} {β : Type v} [BEq α]
    {l : List (α × β)} {k : α} (l' : List (α × β)) (h : l.lookup k = none) :
    (l ++ l').lookup k = l'.lookup k := by
  induction l with
  | nil => simp
  | cons p rest ih =>
    obtain ⟨k', v'⟩ := p
    rw [List.cons_append]
    cases hb : k == k' <;>
      simp only [List.lookup_cons, hb] at h ⊢
    · exact ih h
    · exact absurd h (by simp)

/-- The per-entry safety property of the `suggests_level2` map relative to
the entries it started from: every entry either was there initially or
does not contain its own key. -/
def L2Inv (init : List (String × List String))
    (st : List (String × List String) × List String) : Prop :=
  ∀ k v, st.1.lookup k = some v → init.lookup k = some v ∨ k ∉ v

lemma collectLevel2Step_inv (ex : Extractor)
    (fetch : String → Except Unit (List String))
    (init : List (String × List String))
    (st : List (String × List String) × List String) (s : String)
    (h : L2Inv init st) : L2Inv init (collectLevel2Step ex fetch st s) := by
  unfold collectLevel2Step
  by_cases hp : (st.1.lookup s).isSome
  · simp only [if_pos hp]
    exact h
  · simp only [if_neg hp]
    intro k v hv
    have hsl : st.1.lookup s = none := by
      cases hx : st.1.lookup s
      · rfl
      · rw [hx] at hp
        simp at hp
    by_cases hk : k = s
    · subst hk
      rw [lookup_append_none _ hsl, List.lookup_cons] at hv
      simp only [beq_self_eq_true] at hv
      obtain rfl := Option.some.inj hv
      right
      intro hmem
      have hf := List.of_mem_filter hmem
      simp at hf
    · cases hx : st.1.lookup k with
      | some v' =>
        rw [lookup_append_some hx] at hv
        obtain rfl := Option.some.inj hv
        exact h k v' hx
      | none =>
        rw [lookup_append_none _ hx, List.lookup_cons] at hv
        have hb : (k == s) = false := beq_eq_false_iff_ne.mpr hk
        simp only [hb] at hv
        simp [List.lookup] at hv

lemma collectLevel2Step_lookup_mono (ex : Extractor)
    (fetch : String → Except Unit (List String))
    (st : List (String × List String) × List String) (s : String)
    {k : String} (h : ((st.1).lookup k).isSome) :
    (((collectLevel2Step ex fetch st s).1).lookup k).isSome := by
  unfold collectLevel2Step
  by_cases hp : (st.1.lookup s).isSome
  · simp only [if_pos hp]
    exact h
  · simp only [if_neg hp]
    cases hx : st.1.lookup k with
    | some v => simp [lookup_append_some hx]
    | none =>
      rw [hx] at h
      simp at h

lemma collectLevel2Step_lookup_self (ex : Extractor)
    (fetch : String → Except Unit (List String))
    (st : List (String × List String) × List String) (s : String) :
    (((collectLevel2Step ex fetch st s).1).lookup s).isSome := by
  unfold collectLevel2Step
  by_cases hp : (st.1.lookup s).isSome
  · simp only [if_pos hp]
    exact hp
  · simp only [if_neg hp]
    have hsl : st.1.lookup s = none := by
      cases hx : st.1.lookup s
      · rfl
      · rw [hx] at hp
        simp at hp
    rw [lookup_append_none _ hsl, List.lookup_cons]
    simp [beq_self_eq_true]

lemma collect_fold_isSome (ex : Extractor)
    (fetch : String → Except Unit (List String)) :
    ∀ (l1 : List String) (st : List (String × List String) × List String)
      (s : String), s ∈ l1 →
    (((l1.foldl (collectLevel2Step ex fetch) st).1).lookup s).isSome := by
  intro l1
  induction l1 with
  | nil =>
    intro st s hs
    simp at hs
  | cons t ts ih =>
    intro st s hs
    rcases List.mem_cons.mp hs with rfl | hs'
    · rw [List.foldl_cons]
      exact foldl_inv
        (fun b a hb => collectLevel2Step_lookup_mono ex fetch b a hb) ts _
        (collectLevel2Step_lookup_self ex fetch st s)
    · exact ih _ s hs'

/-- C10: a level-1 suggestion never appears in its own level-2 list.
First part: whichever entry `collect_level2_suggestions` stores for a
level-1 suggestion that had no pre-existing entry excludes the suggestion
itself (`level2_suggests.discard(suggestion)` before storing).  Second
part: every entry of the cleaned hierarchy map built by
`_generate_final_results` excludes its own key (`suggests_set.discard(
suggest)`), whatever state `suggests_level2` is in. -/
theorem c10_parent_discarded (ex : Extractor)
    (fetch : String → Except Unit (List String)) (level1 : List String)
    (level2_init level2 : List (String × List String)) (s : String) :
    (s ∈ level1 → level2_init.lookup s = none →
      ∃ l, (collect_level2_suggestions ex fetch level1 level2_init).lookup s
          = some l ∧ s ∉ l)
    ∧ (∀ l, (cleanedLevel2 level1 level2).lookup s = some l → s ∉ l) := by
  constructor
  · intro hs hinit
    have hsome := collect_fold_isSome ex fetch level1 (level2_init, []) s hs
    have hinv : L2Inv level2_init
        (level1.foldl (collectLevel2Step ex fetch) (level2_init, [])) :=
      foldl_inv (fun b a hb => collectLevel2Step_inv ex fetch level2_init b a hb)
        _ _ (fun k v hv => Or.inl hv)
    cases hx : (collect_level2_suggestions ex fetch level1 level2_init).lookup s with
    | none =>
      rw [collect_level2_suggestions] at hx
      rw [hx] at hsome
      simp at hsome
    | some l =>
      refine ⟨l, rfl, ?_⟩
      rw [collect_level2_suggestions] at hx
      rcases hinv s l hx with hcontra | hout
      · rw [hinit] at hcontra
        exact absurd hcontra (by simp)
      · exact hout
  · have hstep : ∀ (acc : List (String × List String)) (x : String),
        (∀ k v, acc.lookup k = some v → k ∉ v) →
        ∀ k v, ((fun acc s' =>
            match level2.lookup s' with
            | some l => acc ++ [(s', (setUpdate [] l).filter (fun x => x ≠ s'))]
            | none => acc) acc x).lookup k = some v → k ∉ v := by
      intro acc x hacc k v
      cases hl : level2.lookup x with
      | none =>
        simp only [hl]
        exact hacc k v
      | some l =>
        simp only [hl]
        intro hv
        by_cases hk : k = x
        · subst hk
          cases hax : acc.lookup k with
          | some v' =>
            rw [lookup_append_some hax] at hv
            obtain rfl := Option.some.inj hv
            exact hacc k v' hax
          | none =>
            rw [lookup_append_none _ hax, List.lookup_cons] at hv
            simp only [beq_self_eq_true] at hv
            obtain rfl := Option.some.inj hv
            intro hmem
            have hf := List.of_mem_filter hmem
            simp at hf
        · cases hax : acc.lookup k with
          | some v' =>
            rw [lookup_append_some hax] at hv
            obtain rfl := Option.some.inj hv
            exact hacc k v' hax
          | none =>
            rw [lookup_append_none _ hax, List.lookup_cons] at hv
            have hb : (k == x) = false := beq_eq_false_iff_ne.mpr hk
            simp only [hb] at hv
            simp [List.lookup] at hv
    intro l
    exact (foldl_inv hstep level1 [] (by intro k v hv; simp [List.lookup] at hv))
      s l

/-- Witness for C10 at a concrete input: the fetch stub returns the parent
`"hotel"` among its answers, yet the stored level-2 entry for `"hotel"`
excludes `"hotel"`, and so does the cleaned hierarchy entry built from a
raw map that contains `"hotel"` under its own key. -/
theorem c10_parent_discarded_witness :
    (∃ l, (collect_level2_suggestions exW fW ["hotel"] []).lookup "hotel"
        = some l ∧ "hotel" ∉ l)
    ∧ (∀ l, (cleanedLevel2 ["hotel"]
          [("hotel", ["a", "hotel", "b"])]).lookup "hotel" = some l
        → "hotel" ∉ l) :=
  ⟨(c10_parent_discarded exW fW ["hotel"] []
      [("hotel", ["a", "hotel", "b"])] "hotel").1 (by decide) (by decide),
    (c10_parent_discarded exW fW ["hotel"] []
      [("hotel", ["a", "hotel", "b"])] "hotel").2⟩

end ConvQueries
